import Mathlib

/-!
Verification development for the OneDrive → Azure Search ingestion pipeline
(`scripts/ingest_onedrive.ts`).  The JavaScript functions are shallowly
embedded over `List Char` (JS strings), `Int` (JS numbers at integral
values) and explicit oracles for the network calls.  Definitions follow the
source line by line; timestamps are modelled as naturals (epoch
milliseconds, ISO-8601 string order agrees with numeric order), and a
missing / empty-string value is modelled as `none`.
-/

/-- JS whitespace characters removed by `String.prototype.trim` (ASCII part
plus NBSP/BOM; the source text only ever contains ASCII). -/
def isJsSpace (c : Char) : Bool :=
  c = ' ' || c = '\t' || c = '\n' || c = '\r' || c = '\x0b' || c = '\x0c' ||
  c = ' ' || c = '﻿'

/-- `s.trim()`. -/
def jsTrim (s : List Char) : List Char :=
  ((s.dropWhile isJsSpace).reverse.dropWhile isJsSpace).reverse

/-- `s.slice(start, end)` with JS index clamping (negative indices count
from the end of the string). -/
def jsSlice (s : List Char) (start stop : Int) : List Char :=
  let len : Int := s.length
  let st : Int := if start < 0 then max (len + start) 0 else min start len
  let en : Int := if stop < 0 then max (len + stop) 0 else min stop len
  if st < en then (s.drop st.toNat).take (en - st).toNat else []

/-- Largest index `i ≤ bound` (indices counted from `i0`) whose character
equals `c`, as an `Int`; `-1` when there is none. -/
def lastIdxFrom (c : Char) (bound : Nat) : List Char → Nat → Int
  | [], _ => -1
  | a :: rest, i =>
    max (if i ≤ bound && a = c then (i : Int) else -1)
        (lastIdxFrom c bound rest (i + 1))

/-- `s.lastIndexOf(c, pos)` for a single-character needle: the largest
index `i ≤ pos` with `s[i] = c`, or `-1`; a negative `pos` is clamped
to `0` as in JS. -/
def jsLastIndexOf (s : List Char) (c : Char) (pos : Int) : Int :=
  lastIdxFrom c pos.toNat s 0

/-! ### Chunker (`chunkText`, script lines 344-373) -/

/-- The window end computed by one iteration of the `chunkText` loop:
`end = start + chunkSize`, moved back to just past the nearest `'.'` or
`'\n'` at or before it when that break point lies strictly past the
window's 50% mark.  The JS comparison `breakPoint > start + chunkSize*0.5`
is exact on these integral values and is rendered as
`2*breakPoint > 2*start + chunkSize`. -/
def chunkEnd (text : List Char) (chunkSize : Nat) (start : Int) : Int :=
  let e : Int := start + chunkSize
  if e < (text.length : Int) then
    let lastPeriod := jsLastIndexOf text '.' e
    let lastNewline := jsLastIndexOf text '\n' e
    let breakPoint := max lastPeriod lastNewline
    if 2 * breakPoint > 2 * start + (chunkSize : Int) then breakPoint + 1 else e
  else e

/-- The next window start: `start = end - overlap` (bottom of the loop). -/
def chunkNextStart (text : List Char) (chunkSize overlap : Nat) (start : Int) : Int :=
  chunkEnd text chunkSize start - overlap

/-- The `while (start < text.length)` loop of `chunkText`, fuelled.  `none`
means the fuel ran out with the loop still running; the bottom-of-loop
`if (start >= text.length) break` is the `some []` base of `rest?`. -/
def chunkLoop (text : List Char) (chunkSize overlap : Nat) :
    Nat → Int → Option (List (List Char))
  | 0, start => if start < (text.length : Int) then none else some []
  | fuel + 1, start =>
    if start < (text.length : Int) then
      let e := chunkEnd text chunkSize start
      let chunk := jsTrim (jsSlice text start e)
      let start' := e - (overlap : Int)
      let rest? := if (text.length : Int) ≤ start' then some []
                   else chunkLoop text chunkSize overlap fuel start'
      rest?.map (fun rest => if 200 ≤ chunk.length then chunk :: rest else rest)
    else some []

/-- `chunkText(text, chunkSize, overlap)`; the defaults at the call site are
`chunkSize = 1000`, `overlap = 200`.  Fuel `text.length + 1` is enough
whenever the loop makes forward progress of at least one position per
iteration (proved below for `2*overlap ≤ chunkSize`). -/
def chunkText (text : List Char) (chunkSize overlap : Nat) :
    Option (List (List Char)) :=
  chunkLoop text chunkSize overlap (text.length + 1) 0

/-- The same loop instrumented to record every produced window
`(start, end)` before the minimum-length filter is applied. -/
def windowLoop (text : List Char) (chunkSize overlap : Nat) :
    Nat → Int → Option (List (Int × Int))
  | 0, start => if start < (text.length : Int) then none else some []
  | fuel + 1, start =>
    if start < (text.length : Int) then
      let e := chunkEnd text chunkSize start
      let start' := e - (overlap : Int)
      let rest? := if (text.length : Int) ≤ start' then some []
                   else windowLoop text chunkSize overlap fuel start'
      rest?.map (fun rest => (start, e) :: rest)
    else some []

/-- All windows produced by `chunkText` before the `length ≥ 200` filter. -/
def chunkWindows (text : List Char) (chunkSize overlap : Nat) :
    Option (List (Int × Int)) :=
  windowLoop text chunkSize overlap (text.length + 1) 0

/-- Ceiling division `⌈n / d⌉` on naturals. -/
def ceilDiv (n d : Nat) : Nat := (n + d - 1) / d

/-- The `chunkText` loop never terminates on this input: no fuel suffices. -/
def ChunkDiverges (text : List Char) (chunkSize overlap : Nat) : Prop :=
  ∀ fuel, chunkLoop text chunkSize overlap fuel 0 = none

/-! ### Content hash (`hashContent`, script lines 501-511) -/

/-- Wrap an integer to a signed 32-bit value, as the JS `| 0`-style
coercions (`<<`, `&`) do. -/
def toInt32 (n : Int) : Int := (n + 2 ^ 31) % 2 ^ 32 - 2 ^ 31

/-- One iteration of the `hashContent` loop:
`hash = (hash << 5) - hash + charCode; hash = hash & hash`.
`hash << 5` wraps to int32, the sum is exact in doubles, `& hash` wraps
again.  `charCodeAt` is the character's code (all inputs here are BMP). -/
def hashStep (h : Int) (c : Char) : Int :=
  toInt32 (toInt32 (h * 32) - h + c.toNat)

/-- The accumulator after the whole loop. -/
def hashAcc (s : List Char) : Int := s.foldl hashStep 0

/-- One hex digit as produced by `Number.prototype.toString(16)`
(lowercase). -/
def hexDigitChar (n : Nat) : Char :=
  match n with
  | 0 => '0' | 1 => '1' | 2 => '2' | 3 => '3' | 4 => '4'
  | 5 => '5' | 6 => '6' | 7 => '7' | 8 => '8' | 9 => '9'
  | 10 => 'a' | 11 => 'b' | 12 => 'c' | 13 => 'd' | 14 => 'e'
  | _ => 'f'

/-- Digits of `n` in base 16 (fuelled most-significant-first recursion). -/
def natToHexAux : Nat → Nat → List Char → List Char
  | 0, n, acc => hexDigitChar (n % 16) :: acc
  | fuel + 1, n, acc =>
    if n < 16 then hexDigitChar n :: acc
    else natToHexAux fuel (n / 16) (hexDigitChar (n % 16) :: acc)

/-- `n.toString(16)` for a non-negative integral number below `16^12`. -/
def natToHex (n : Nat) : List Char := natToHexAux 11 n []

/-- `hashContent(content) = Math.abs(hash).toString(16)`. -/
def hashContent (s : List Char) : List Char := natToHex (hashAcc s).natAbs

/-- Numeric value of a lowercase hex digit (inverse of `hexDigitChar`). -/
def hexToNat (c : Char) : Nat :=
  if c ≤ '9' then c.toNat - '0'.toNat else c.toNat - 'a'.toNat + 10

/-- Value denoted by a most-significant-first hex digit string. -/
def hexValue (l : List Char) : Nat :=
  l.foldl (fun a c => a * 16 + hexToNat c) 0

/-- Lowercase hexadecimal digits (note: no sign character). -/
def isLowerHexDigit (c : Char) : Bool :=
  ('0' ≤ c && c ≤ '9') || ('a' ≤ c && c ≤ 'f')

/-! ### Data model of the pipeline (`main`, `getIndexedFiles`,
`listOneDriveFiles`, `upsertToAzureSearch`) -/

/-- A OneDrive item as consumed by `main` (strings are `List Char`,
timestamps epoch-millisecond naturals; `none` models a missing field). -/
structure RFile where
  id : List Char
  name : List Char
  isFile : Bool
  lastModified : Option Nat
  size : Option Nat
deriving DecidableEq, Repr

/-- A `(file_id, updated_at)` row returned by the change-detection query;
`updated_at = none` models a missing / empty value, `file_id = []` a
falsy one. -/
structure QDoc where
  file_id : List Char
  updated_at : Option Nat
deriving DecidableEq, Repr

/-- A chunk document as pushed into `allDocuments` (the string key
`fileId_chunkIdx` is represented by the pair `(file_id, chunk_offset)`;
the metadata fields that are copied verbatim are omitted). -/
structure Doc where
  file_id : List Char
  chunk_offset : Nat
  content : List Char
  content_vector : List Int
  content_hash : List Char
  updated_at : Nat
deriving DecidableEq, Repr

/-- Deterministic oracles for the network calls of one run: download,
text extraction, embedding, index upsert, plus the run's clock
(`new Date()` when a file has no modification time). -/
structure Env where
  download : List Char → Except (List Char) (List Nat)
  extract : List Nat → List Char → Except (List Char) (List Char)
  embed : List Char → Except (List Char) (List Int)
  upsert : List Doc → Except (List Char) Unit
  now : Nat

/-- The watermark map built by `getIndexedFiles`
(`Map<string, string>` with insertion-order association list;
the value `none` models the empty string `''`). -/
abbrev WMap := List (List Char × Option Nat)

/-- `Map.prototype.get`. -/
def lookupA : WMap → List Char → Option (Option Nat)
  | [], _ => none
  | (k, v) :: rest, fid => if k = fid then some v else lookupA rest fid

/-- `Map.prototype.set` (replace in place or append). -/
def setA : WMap → List Char → Option Nat → WMap
  | [], k, v => [(k, v)]
  | (k', v') :: rest, k, v =>
    if k' = k then (k', v) :: rest else (k', v') :: setA rest k v

/-- `name.split(".").pop()`: the final dot-separated segment (the whole
name when it has no dot). -/
def lastSegAfterDot (s : List Char) : List Char :=
  ((s.reverse.takeWhile (fun c => c ≠ '.'))).reverse

/-- `name.split(".").pop()?.toLowerCase()`. -/
def extOf (s : List Char) : List Char :=
  (lastSegAfterDot s).map Char.toLower

/-- `id.split("!")[1]`: the segment between the first and second `'!'`. -/
def secondSegAfterBang (s : List Char) : List Char :=
  ((s.dropWhile (fun c => c ≠ '!')).drop 1).takeWhile (fun c => c ≠ '!')

/-- `file.id.includes("!") ? file.id.split("!")[1] : file.id`. -/
def normalizeId (s : List Char) : List Char :=
  if s.contains '!' then secondSegAfterBang s else s

/-- The extension filter of `listOneDriveFiles` (script line 193): only
`.pdf`, `.docx`, `.xlsx`, `.pptx` files are listed. -/
def listKeep (name : List Char) : Bool :=
  let e := extOf name
  e = "pdf".toList || e = "docx".toList || e = "xlsx".toList || e = "pptx".toList

/-- The per-directory behaviour of `listOneDriveFiles`: keep file items
passing the extension filter, skip everything else (the recursion into
subfolders and the `@odata.nextLink` pagination only concatenate more
such listings). -/
def listFiles (items : List RFile) : List RFile :=
  items.filter (fun it => it.isFile && listKeep it.name)

/-! ### Change detection (`getIndexedFiles`, script lines 403-457) -/

/-- Processing of one query row (script lines 443-450):
`if (!existing || (doc.updated_at && doc.updated_at > existing))
   set(doc.file_id, doc.updated_at || '')`, guarded by `if (doc.file_id)`.
A stored empty string (`some none`) is falsy and is overwritten; the `>`
on ISO strings is the numeric order on the modelled timestamps. -/
def wmUpdate (m : WMap) (d : QDoc) : WMap :=
  if d.file_id = [] then m
  else
    match lookupA m d.file_id with
    | none => setA m d.file_id d.updated_at
    | some none => setA m d.file_id d.updated_at
    | some (some w) =>
      match d.updated_at with
      | some t => if w < t then setA m d.file_id d.updated_at else m
      | none => m

/-- The pagination loop of `getIndexedFiles`, fuelled.  The index is
modelled as a stable finite list `all`; a query with `skip`/`top` returns
`(all.drop skip).take top`.  The loop stops on an empty page or on a page
shorter than `top`. -/
def gifLoop (all : List QDoc) (top : Nat) : Nat → Nat → WMap → Option WMap
  | 0, skip, m => if ((all.drop skip).take top).isEmpty then some m else none
  | fuel + 1, skip, m =>
    let page := (all.drop skip).take top
    if page.isEmpty then some m
    else
      let m' := page.foldl wmUpdate m
      if page.length < top then some m'
      else gifLoop all top fuel (skip + top) m'

/-- `getIndexedFiles` over the modelled index content; `top = 1000` as in
the script. -/
def getIndexedFiles (all : List QDoc) : Option WMap :=
  gifLoop all 1000 (all.length + 1) 0 []

/-- All `updated_at` timestamps of the chunk documents of one file. -/
def valsOf (all : List QDoc) (fid : List Char) : List Nat :=
  all.filterMap (fun d => if d.file_id = fid then d.updated_at else none)

/-- Specification side of claim C8: the maximum `updated_at` over all of
a file's chunk documents. -/
def specWatermark (all : List QDoc) (fid : List Char) : Nat :=
  (valsOf all fid).foldl Nat.max 0

/-! ### Classification (first pass of `main`, script lines 588-615) -/

/-- `fileCategories` entries. -/
inductive Category | isNew | isUpdated | unchanged | xlsx
deriving DecidableEq, Repr

/-- The raw map value seen through JS truthiness:
`indexedFiles.get(fileId)` is truthy iff the id is present with a
non-empty watermark. -/
def wmTruthy (indexed : WMap) (fid : List Char) : Option Nat :=
  match lookupA indexed fid with
  | some (some t) => some t
  | _ => none

/-- First-pass categorisation of one discovered file:
xlsx first; then `if (indexedUpdatedAt && fileModifiedAt)` compare
`new Date(fileModifiedAt) <= new Date(indexedUpdatedAt)`; else `new`. -/
def categorize (indexed : WMap) (f : RFile) : Category :=
  if extOf f.name = "xlsx".toList then .xlsx
  else
    match wmTruthy indexed (normalizeId f.id), f.lastModified with
    | some w, some m => if m ≤ w then .unchanged else .isUpdated
    | _, _ => .isNew

/-- The classification vocabulary of the specification. -/
inductive SpecClass | isNew | isUpdated | unchanged | unsupported
deriving DecidableEq, Repr

/-- Rename code categories into the specification's vocabulary
(`xlsx` is its only unsupported discovered type). -/
def catToSpec : Category → SpecClass
  | .isNew => .isNew
  | .isUpdated => .isUpdated
  | .unchanged => .unchanged
  | .xlsx => .unsupported

/-- Extensions supported by the text extractor (`extractTextFromFile`). -/
def supportedExts : List (List Char) :=
  ["txt".toList, "md".toList, "pdf".toList, "docx".toList, "pptx".toList]

/-- Specification side of claim C4 (classification rule of spec §4.2):
`unsupported` if the extension is not in the supported set, else `new` if
the watermark is absent, else `updated` iff the remote modification time
is strictly greater than the watermark. -/
def specClassify (supported : Bool) (wm : Option Nat) (m : Nat) : SpecClass :=
  if supported then
    match wm with
    | none => .isNew
    | some w => if w < m then .isUpdated else .unchanged
  else .unsupported

/-! ### Per-file processing (second pass of `main`, script lines 633-783) -/

/-- Guardrail constants (script lines 573-576). -/
def MAX_FILE_SIZE_BYTES : Nat := 25 * 1024 * 1024

def MAX_TEXT_LENGTH : Nat := 300000

def MAX_CHUNKS : Nat := 300

/-- Which branch of the per-file body fired; mirrors the distinct log
messages of the script. -/
inductive FileOutcome
  | skipXlsxCat | skipUnchanged | skipOversizeMeta | skipOversizeBuffer
  | skipXlsxInner | skipTooMuchText | skipTooManyChunks
  | errored | processed
deriving DecidableEq, Repr

/-- Run counters and the accumulated `allDocuments`; `errors` counts the
executions of the per-file `catch` (which only logs). -/
structure St where
  skipped : Nat := 0
  skippedUnchanged : Nat := 0
  skippedXlsx : Nat := 0
  newC : Nat := 0
  updatedC : Nat := 0
  errors : Nat := 0
  docs : List Doc := []
deriving DecidableEq, Repr

/-- A chunk document as built at script lines 761-777. -/
def mkDoc (env : Env) (fid : List Char) (f : RFile) (idx : Nat)
    (chunk : List Char) (vec : List Int) : Doc :=
  { file_id := fid
    chunk_offset := idx
    content := chunk
    content_vector := vec
    content_hash := hashContent chunk
    updated_at := f.lastModified.getD env.now }

/-- The per-chunk embedding loop (script lines 742-778): documents are
pushed one by one; the first embedding failure throws, keeping the
documents already pushed and discarding the remaining chunks.  Returns
the pushed documents and whether the loop threw. -/
def embedChunksGo (env : Env) (fid : List Char) (f : RFile) :
    List (List Char) → Nat → List Doc × Bool
  | [], _ => ([], false)
  | c :: rest, idx =>
    match env.embed c with
    | .error _ => ([], true)
    | .ok v =>
      let d := mkDoc env fid f idx c v
      let r := embedChunksGo env fid f rest (idx + 1)
      (d :: r.1, r.2)

/-- Count adjustment after a guardrail skip (script lines 668-673 etc.):
`if (!indexedUpdatedAt) newCount-- else if (fileModifiedAt && modified >
watermark) updatedCount--`. -/
def adjustCounts (indexed : WMap) (f : RFile) (s : St) : St :=
  match wmTruthy indexed (normalizeId f.id) with
  | none => { s with newC := s.newC - 1 }
  | some w =>
    match f.lastModified with
    | some m => if w < m then { s with updatedC := s.updatedC - 1 } else s
    | none => s

/-- The body of the second-pass loop for one file, returning the updated
run state and the branch that fired. -/
def processFile (env : Env) (indexed : WMap) (f : RFile) (st : St) :
    St × FileOutcome :=
  let fid := normalizeId f.id
  match categorize indexed f with
  | .xlsx =>
    ({ st with skippedXlsx := st.skippedXlsx + 1, skipped := st.skipped + 1 },
     .skipXlsxCat)
  | .unchanged =>
    ({ st with skippedUnchanged := st.skippedUnchanged + 1,
               skipped := st.skipped + 1 }, .skipUnchanged)
  | cat =>
    let st := if cat = .isUpdated then { st with updatedC := st.updatedC + 1 }
              else { st with newC := st.newC + 1 }
    if MAX_FILE_SIZE_BYTES < f.size.getD 0 then
      (adjustCounts indexed f { st with skipped := st.skipped + 1 },
       .skipOversizeMeta)
    else
      match env.download fid with
      | .error _ => ({ st with errors := st.errors + 1 }, .errored)
      | .ok buf =>
        if MAX_FILE_SIZE_BYTES < buf.length then
          (adjustCounts indexed f { st with skipped := st.skipped + 1 },
           .skipOversizeBuffer)
        else if extOf f.name = "xlsx".toList then
          (adjustCounts indexed f { st with skipped := st.skipped + 1 },
           .skipXlsxInner)
        else
          match env.extract buf f.name with
          | .error _ => ({ st with errors := st.errors + 1 }, .errored)
          | .ok content =>
            if MAX_TEXT_LENGTH < content.length then
              (adjustCounts indexed f { st with skipped := st.skipped + 1 },
               .skipTooMuchText)
            else
              let chunks := (chunkText content 1000 200).getD []
              if MAX_CHUNKS < chunks.length then (st, .skipTooManyChunks)
              else
                let r := embedChunksGo env fid f chunks 0
                ({ st with docs := st.docs ++ r.1,
                           errors := st.errors + (if r.2 then 1 else 0) },
                 if r.2 then .errored else .processed)

/-! ### Index writer (script lines 810-816, `upsertToAzureSearch`) -/

/-- The batching loop `for (i = 0; i < docs.length; i += batchSize)
slice(i, i + batchSize)`, fuelled (`i` grows by `bs ≥ 1` per step). -/
def batchLoop (bs : Nat) (docs : List Doc) : Nat → Nat → List (List Doc)
  | 0, _ => []
  | fuel + 1, i =>
    if i < docs.length then ((docs.drop i).take bs) :: batchLoop bs docs fuel (i + bs)
    else []

/-- The batches submitted for `docs` at batch size `bs`. -/
def batchesOf (bs : Nat) (docs : List Doc) : List (List Doc) :=
  batchLoop bs docs (docs.length + 1) 0

/-- Sequential submission: one upsert call per batch; the first failing
response throws.  Returns the batches actually submitted (the failing
call included) and the error, if any. -/
def sendTrace (up : List Doc → Except (List Char) Unit) :
    List (List Doc) → List (List Doc) × Option (List Char)
  | [] => ([], none)
  | b :: rest =>
    match up b with
    | .error e => ([b], some e)
    | .ok _ =>
      let r := sendTrace up rest
      (b :: r.1, r.2)

/-! ### The run (`main`, script lines 549, 633-827) -/

/-- Observable outcome of one pipeline run: the process exit code, the
final counters/documents, the batches submitted to the index and the
upsert error, if any. -/
structure RunOut where
  exit : Nat
  st : St
  sent : List (List Doc)
  upsertErr : Option (List Char)
deriving Repr

/-- One pipeline run over an already-built watermark map and the listed
files: early `exit(0)` on an empty listing (line 549); the per-file loop;
`exit(0)` iff some file was counted as skipped when no documents were
produced (lines 795-805); otherwise batched upserts whose first failure
reaches the top-level catch and exits 1 (lines 810-827). -/
def runIngest (env : Env) (indexed : WMap) (files : List RFile) : RunOut :=
  if files.isEmpty then ⟨0, {}, [], none⟩
  else
    let st := files.foldl (fun s f => (processFile env indexed f s).1) {}
    if st.docs.isEmpty then
      if 0 < st.skipped then ⟨0, st, [], none⟩ else ⟨1, st, [], none⟩
    else
      let r := sendTrace env.upsert (batchesOf 100 st.docs)
      match r.2 with
      | some e => ⟨1, st, r.1, some e⟩
      | none => ⟨0, st, r.1, none⟩

/-! ### Concrete instances used by witnesses and counterexamples -/

/-- All-success oracles. -/
def envOk : Env :=
  { download := fun _ => .ok []
    extract := fun _ _ => .ok []
    embed := fun _ => .ok [1]
    upsert := fun _ => .ok ()
    now := 0 }

/-- Input on which the `chunkText` loop diverges for
`chunkSize = 10`, `overlap = 9`: six letters, a period, twelve letters. -/
def badTextC2 : List Char := "aaaaaa.aaaaaaaaaaaa".toList

/-- A 50 KB plain-text file as listed by the remote store. -/
def txtItemC3 : RFile :=
  { id := "T1".toList, name := "notes.txt".toList, isFile := true
    lastModified := some 10, size := some 51200 }

/-- An unsupported spreadsheet next to it. -/
def xlsxItemC3 : RFile :=
  { id := "X1".toList, name := "sheet.xlsx".toList, isFile := true
    lastModified := some 10, size := some 1000 }

/-- Oracles for the C5 scenario: extraction yields 1000 characters
(two chunks of lengths 1000 and 200); embedding succeeds on the first
chunk and fails on the second. -/
def envC5 : Env :=
  { download := fun _ => .ok [0]
    extract := fun _ _ => .ok (List.replicate 1000 'a')
    embed := fun c => if c.length = 1000 then .ok [1] else .error "boom".toList
    upsert := fun _ => .ok ()
    now := 0 }

/-- The file whose second chunk fails to embed. -/
def fileC5 : RFile :=
  { id := "A".toList, name := "a.pdf".toList, isFile := true
    lastModified := some 10, size := some 100 }

/-- Oracles for the C6 scenario: every extraction fails. -/
def envC6 : Env :=
  { download := fun _ => .ok []
    extract := fun _ _ => .error "bad".toList
    embed := fun _ => .ok [1]
    upsert := fun _ => .ok ()
    now := 0 }

/-- A new file whose extraction will fail. -/
def fileC6A : RFile :=
  { id := "A".toList, name := "a.pdf".toList, isFile := true
    lastModified := some 3, size := none }

/-- An unchanged file (its watermark 5 is at least its modification
time 3). -/
def fileC6B : RFile :=
  { id := "B".toList, name := "b.pdf".toList, isFile := true
    lastModified := some 3, size := none }

/-- Watermark map for the C6 scenario. -/
def wmC6 : WMap := [("B".toList, some 5)]

/-- Index rows for the C8 witness: one file with two chunk documents,
another with one. -/
def qdocsW : List QDoc :=
  [⟨"f".toList, some 3⟩, ⟨"f".toList, some 7⟩, ⟨"g".toList, some 2⟩]

/-- Watermark map for the C4 witness. -/
def wmW : WMap := [("f1".toList, some 5)]

/-- File for the C4 witness: supported extension, watermark present,
modified after it. -/
def fileW : RFile :=
  { id := "f1".toList, name := "doc.pdf".toList, isFile := true
    lastModified := some 9, size := some 10 }

/-- File of exactly the maximum allowed size. -/
def fileAtMax : RFile :=
  { id := "C".toList, name := "c.pdf".toList, isFile := true
    lastModified := some 3, size := some MAX_FILE_SIZE_BYTES }

/-- File one byte over the maximum allowed size. -/
def fileOverMax : RFile :=
  { id := "D".toList, name := "d.pdf".toList, isFile := true
    lastModified := some 3, size := some (MAX_FILE_SIZE_BYTES + 1) }

/-- An upsert oracle that rejects every batch (for the C7 witness). -/
def upFail : List Doc → Except (List Char) Unit := fun _ => .error "503".toList

/-- A one-field document (for the C7 witness). -/
def docW (n : Nat) : Doc :=
  { file_id := "w".toList, chunk_offset := n, content := [],
    content_vector := [], content_hash := [], updated_at := 0 }

/-- Embedding oracle for the C5 witness: fails exactly on the empty
chunk. -/
def envW : Env :=
  { download := fun _ => .ok []
    extract := fun _ _ => .ok []
    embed := fun c => if c = [] then .error "e".toList else .ok [2]
    upsert := fun _ => .ok ()
    now := 0 }

/-! ## Lemmas about the chunker -/

theorem lastIdxFrom_not_mem (c : Char) (s : List Char) (h : c ∉ s) :
    ∀ bound i, lastIdxFrom c bound s i = -1 := by
  induction s with
  | nil => intro bound i; rfl
  | cons a rest ih =>
    intro bound i
    have hac : ¬ (a = c) := by
      rintro rfl
      exact h (List.mem_cons_self a rest)
    have hrest : c ∉ rest := fun hm => h (List.mem_cons_of_mem a hm)
    simp only [lastIdxFrom, ih hrest bound (i + 1), hac]
    simp

theorem jsLastIndexOf_not_mem (s : List Char) (c : Char) (pos : Int)
    (h : c ∉ s) : jsLastIndexOf s c pos = -1 :=
  lastIdxFrom_not_mem c s h pos.toNat 0

theorem chunkEnd_no_break (text : List Char) (T : Nat) (s : Int)
    (hd : '.' ∉ text) (hn : '\n' ∉ text) (hs : 0 ≤ s) :
    chunkEnd text T s = s + T := by
  unfold chunkEnd
  by_cases h1 : s + (T : Int) < (text.length : Int)
  · rw [if_pos h1, jsLastIndexOf_not_mem text '.' _ hd,
      jsLastIndexOf_not_mem text '\n' _ hn]
    simp only [max_self]
    rw [if_neg (by omega)]
  · rw [if_neg h1]

theorem ceilDiv_eq_one (n d : Nat) (h1 : 0 < n) (h2 : n ≤ d) :
    ceilDiv n d = 1 := by
  unfold ceilDiv
  have hd : 0 < d := lt_of_lt_of_le h1 h2
  have h3 : n + d - 1 = (n - 1) + d := by omega
  rw [h3, Nat.add_div_right _ hd, Nat.div_eq_of_lt (by omega)]

theorem ceilDiv_succ (n d : Nat) (hd : 0 < d) (h : d < n) :
    ceilDiv n d = ceilDiv (n - d) d + 1 := by
  unfold ceilDiv
  have h1 : n + d - 1 = (n - 1) + d := by omega
  have h2 : n - d + d - 1 = n - 1 := by omega
  rw [h1, h2, Nat.add_div_right _ hd]

theorem windowLoop_count (text : List Char) (T O : Nat)
    (hd : '.' ∉ text) (hn : '\n' ∉ text) (hOT : O < T) :
    ∀ fuel s, s < text.length → text.length ≤ s + fuel →
      (windowLoop text T O fuel (s : Int)).map List.length =
        some (ceilDiv (text.length - s) (T - O)) := by
  intro fuel
  induction fuel with
  | zero => intro s h1 h2; omega
  | succ n ih =>
    intro s h1 h2
    have hE : chunkEnd text T (s : Int) = (s : Int) + T :=
      chunkEnd_no_break text T s hd hn (Int.natCast_nonneg s)
    simp only [windowLoop]
    rw [if_pos (by exact_mod_cast h1), hE]
    have hcast : (s : Int) + (T : Int) - (O : Int) = ((s + (T - O) : Nat) : Int) := by
      push_cast; omega
    rw [hcast]
    by_cases hend : text.length ≤ s + (T - O)
    · rw [if_pos (by exact_mod_cast hend)]
      simp only [Option.map_some']
      rw [ceilDiv_eq_one _ _ (by omega) (by omega)]
      simp
    · rw [if_neg (fun hc => hend (by exact_mod_cast hc))]
      have hrec := ih (s + (T - O)) (by omega) (by omega)
      obtain ⟨w, hw, hwl⟩ := Option.map_eq_some'.mp hrec
      rw [hw]
      simp only [Option.map_some', List.length_cons, Option.some_inj]
      rw [ceilDiv_succ _ _ (by omega) (by omega), hwl]
      congr 2
      omega

/-- Claim C1 (amended): for text containing no sentence terminator and no
newline (so the boundary adjustment never fires) and any overlap `O < T`,
the number of windows produced before the minimum-length filter is
`⌈L / (T − O)⌉`, not `⌈(L − O) / (T − O)⌉`. -/
theorem chunkWindows_count (text : List Char) (T O : Nat)
    (hd : '.' ∉ text) (hn : '\n' ∉ text) (hOT : O < T) :
    (chunkWindows text T O).map List.length =
      some (ceilDiv text.length (T - O)) := by
  unfold chunkWindows
  by_cases h0 : text.length = 0
  · have : ¬ ((0 : Int) < (text.length : Int)) := by omega
    simp only [windowLoop, this, if_false]
    simp only [Option.map_some', Option.some_inj, List.length_nil]
    unfold ceilDiv
    rw [h0, Nat.zero_add, Nat.div_eq_of_lt (by omega)]
  · have := windowLoop_count text T O hd hn hOT (text.length + 1) 0
      (by omega) (by omega)
    simpa using this

/-- Witness for C1 (amended): seven characters, target 3, overlap 1
give `⌈7/2⌉ = 4` windows. -/
theorem chunkWindows_count_witness :
    (chunkWindows (List.replicate 7 'a') 3 1).map List.length =
      some (ceilDiv (List.replicate 7 'a').length (3 - 1)) :=
  chunkWindows_count (List.replicate 7 'a') 3 1 (by decide) (by decide)
    (by decide)

/-- Counterexample to claim C1 as stated: for the five-character input
`"aaaaa"` with target 5 and overlap 2 the loop produces 2 windows,
while the claimed formula `⌈(L − O)/(T − O)⌉ = ⌈3/3⌉` gives 1. -/
theorem chunkWindows_formula_counterexample :
    (chunkWindows (List.replicate 5 'a') 5 2).map List.length = some 2 ∧
    ceilDiv ((List.replicate 5 'a').length - 2) (5 - 2) = 1 := by
  constructor
  · decide
  · decide

/-- Strict forward progress of the `chunkText` loop when the overlap is
at most half the chunk size. -/
theorem chunkNextStart_gt (text : List Char) (T O : Nat)
    (hT : 0 < T) (hO : 2 * O ≤ T) (s : Int) :
    s < chunkNextStart text T O s := by
  unfold chunkNextStart chunkEnd
  by_cases h1 : s + (T : Int) < (text.length : Int)
  · rw [if_pos h1]
    by_cases h2 : 2 * max (jsLastIndexOf text '.' (s + T))
        (jsLastIndexOf text '\n' (s + T)) > 2 * s + (T : Int)
    · rw [if_pos h2]; omega
    · rw [if_neg h2]; omega
  · rw [if_neg h1]; omega

/-- With forward progress, fuel `text.length + 1` suffices. -/
theorem chunkLoop_isSome (text : List Char) (T O : Nat)
    (hT : 0 < T) (hO : 2 * O ≤ T) :
    ∀ (fuel : Nat) (s : Int), (text.length : Int) ≤ s + (fuel : Int) →
      (chunkLoop text T O fuel s).isSome = true := by
  intro fuel
  induction fuel with
  | zero =>
    intro s hs
    have h1 : ¬ (s < (text.length : Int)) := by omega
    simp [chunkLoop, h1]
  | succ n ih =>
    intro s hs
    by_cases h1 : s < (text.length : Int)
    · have hprog := chunkNextStart_gt text T O hT hO s
      rw [chunkNextStart] at hprog
      by_cases h2 : (text.length : Int) ≤ chunkEnd text T s - (O : Int)
      · simp [chunkLoop, h1, h2]
      · have hrec := ih (chunkEnd text T s - (O : Int)) (by omega)
        simp [chunkLoop, h1, h2, hrec]
    · simp [chunkLoop, h1]

/-- Claim C2 (amended): for any overlap with `2·O ≤ T` — in particular
the call-site defaults `T = 1000`, `O = 200` — every iteration's next
window start strictly exceeds the previous start, and `chunkText`
terminates.  (For `O` past the midpoint this fails; see the
counterexample.) -/
theorem chunkText_progress_terminates (text : List Char) (T O : Nat)
    (hT : 0 < T) (hO : 2 * O ≤ T) :
    (∀ s : Int, s < chunkNextStart text T O s) ∧
      (chunkText text T O).isSome = true :=
  ⟨fun s => chunkNextStart_gt text T O hT hO s,
   chunkLoop_isSome text T O hT hO (text.length + 1) 0 (by push_cast; omega)⟩

/-- Witness for C2 (amended), at the call-site defaults. -/
theorem chunkText_progress_terminates_witness :
    (chunkText "hello".toList 1000 200).isSome = true :=
  (chunkText_progress_terminates "hello".toList 1000 200 (by decide)
    (by decide)).2

/-- One loop step whose produced chunk is shorter than 200 collapses to
the recursive call on the next start. -/
theorem chunkLoop_step_small (text : List Char) (T O : Nat) (s s' : Int)
    (hlt : s < (text.length : Int))
    (hnext : chunkNextStart text T O s = s')
    (hs' : ¬ (text.length : Int) ≤ s')
    (hlen : (jsTrim (jsSlice text s (chunkEnd text T s))).length < 200) :
    ∀ n, chunkLoop text T O (n + 1) s = chunkLoop text T O n s' := by
  intro n
  have h1 : chunkEnd text T s - (O : Int) = s' := hnext
  simp only [chunkLoop, if_pos hlt, h1, if_neg hs']
  have h2 : (fun rest => if 200 ≤ (jsTrim (jsSlice text s (chunkEnd text T s))).length
      then jsTrim (jsSlice text s (chunkEnd text T s)) :: rest else rest) =
      fun (rest : List (List Char)) => rest := by
    funext rest
    rw [if_neg (by omega)]
  rw [h2]
  cases chunkLoop text T O n s' <;> rfl

/-- From start `-2` the loop is stuck: the break point is reselected,
the window end returns to 7 and the next start is `-2` again. -/
theorem badTextC2_loop_stuck :
    ∀ n, chunkLoop badTextC2 10 9 n (-2) = none := by
  intro n
  induction n with
  | zero => decide
  | succ k ih =>
    rw [chunkLoop_step_small badTextC2 10 9 (-2) (-2) (by decide) (by decide)
      (by decide) (by decide) k, ih]

/-- Counterexample to claim C2 as stated: with `overlap = 9 < 10 =
chunkSize` the first iteration on `badTextC2` moves the start from 0
back to `-2` (no forward progress) and the loop never terminates —
no amount of fuel makes `chunkLoop` return. -/
theorem chunkText_divergence_counterexample :
    (9 : Nat) < 10 ∧ chunkNextStart badTextC2 10 9 0 = -2 ∧
      ChunkDiverges badTextC2 10 9 ∧ chunkText badTextC2 10 9 = none := by
  refine ⟨by decide, by decide, ?_, ?_⟩
  · intro fuel
    cases fuel with
    | zero => decide
    | succ n =>
      rw [chunkLoop_step_small badTextC2 10 9 0 (-2) (by decide) (by decide)
        (by decide) (by decide) n, badTextC2_loop_stuck n]
  · rw [chunkText, chunkLoop_step_small badTextC2 10 9 0 (-2) (by decide)
      (by decide) (by decide) (by decide), badTextC2_loop_stuck]

/-- Claim C3 (code bug): on a folder holding one 50 KB `.txt` file and one
`.xlsx` file, the lister's extension filter drops the `.txt` file (it keeps
only pdf/docx/xlsx/pptx), so against an empty index the run ends with
`newCount = 0`, one xlsx skip, zero documents and a successful exit —
not `newCount = 1` with one document per chunk. -/
theorem txt_files_dropped_by_lister :
    (listFiles [txtItemC3, xlsxItemC3]).map (fun f => f.name) =
      ["sheet.xlsx".toList] ∧
    (runIngest envOk [] (listFiles [txtItemC3, xlsxItemC3])).st.newC = 0 ∧
    (runIngest envOk [] (listFiles [txtItemC3, xlsxItemC3])).st.skippedXlsx = 1 ∧
    (runIngest envOk [] (listFiles [txtItemC3, xlsxItemC3])).st.docs = [] ∧
    (runIngest envOk [] (listFiles [txtItemC3, xlsxItemC3])).exit = 0 := by
  refine ⟨by decide, by decide, by decide, by decide, by decide⟩

/-- Claim C4 (confirmed): for a discovered file (one that passed the
lister's extension filter) carrying a modification timestamp, against a
watermark map without empty-string values (`hwm` states that the map
holds exactly the non-empty watermark `wm`, or no entry), the first-pass
categorisation agrees with the specification's classification rule. -/
theorem classification_matches_spec (indexed : WMap) (f : RFile)
    (m : Nat) (wm : Option Nat)
    (hdisc : listKeep f.name = true)
    (hm : f.lastModified = some m)
    (hwm : lookupA indexed (normalizeId f.id) = Option.map some wm) :
    catToSpec (categorize indexed f) =
      specClassify (supportedExts.contains (extOf f.name)) wm m := by
  have hwt : wmTruthy indexed (normalizeId f.id) = wm := by
    cases wm with
    | none => simp [wmTruthy, hwm]
    | some w => simp [wmTruthy, hwm]
  by_cases hx : extOf f.name = "xlsx".toList
  · have hsup : supportedExts.contains (extOf f.name) = false := by
      rw [hx]; decide
    simp only [categorize, if_pos hx, specClassify, hsup]
    rfl
  · have h4 : ((extOf f.name = "pdf".toList ∨ extOf f.name = "docx".toList) ∨
        extOf f.name = "xlsx".toList) ∨ extOf f.name = "pptx".toList := by
      simpa [listKeep] using hdisc
    have hsup : supportedExts.contains (extOf f.name) = true := by
      rcases h4 with ((h | h) | h) | h
      · rw [h]; decide
      · rw [h]; decide
      · exact absurd h hx
      · rw [h]; decide
    simp only [categorize, if_neg hx, hwt, hm, specClassify, hsup]
    cases wm with
    | none => rfl
    | some w =>
      by_cases hmw : m ≤ w
      · have hlt : ¬ w < m := by omega
        simp [catToSpec, hmw, hlt]
      · have hlt : w < m := by omega
        simp [catToSpec, hmw, hlt]

/-- Witness for C4: a supported file with watermark 5 and modification
time 9 is classified `updated` on both sides. -/
theorem classification_matches_spec_witness :
    catToSpec (categorize wmW fileW) =
      specClassify (supportedExts.contains (extOf fileW.name)) (some 5) 9 :=
  classification_matches_spec wmW fileW 9 (some 5) (by decide) (by decide)
    (by decide)

/-- If the embedding oracle succeeds on the first `N` chunks and fails on
chunk `N`, the per-chunk loop stops there: it reports the throw and
returns exactly the documents of chunks `0 .. N-1` (offsets `i .. i+N-1`,
contents `chunks.take N`). -/
theorem embedChunksGo_fail (env : Env) (fid : List Char) (f : RFile) :
    ∀ (chunks : List (List Char)) (N : Nat) (c e : List Char) (i : Nat),
      chunks[N]? = some c →
      (∀ j cj, j < N → chunks[j]? = some cj → ∃ v, env.embed cj = .ok v) →
      env.embed c = .error e →
      (embedChunksGo env fid f chunks i).2 = true ∧
      (embedChunksGo env fid f chunks i).1.map (fun d => d.chunk_offset) =
        List.range' i N ∧
      (embedChunksGo env fid f chunks i).1.map (fun d => d.content) =
        chunks.take N := by
  intro chunks
  induction chunks with
  | nil => intro N c e i hc hok hfail; simp at hc
  | cons c0 rest ih =>
    intro N c e i hc hok hfail
    cases N with
    | zero =>
      have hcc : c0 = c := by simpa using hc
      rw [← hcc] at hfail
      simp [embedChunksGo, hfail, List.range']
    | succ k =>
      obtain ⟨v, hv⟩ := hok 0 c0 (Nat.succ_pos k) (by simp)
      have hrec := ih k c e (i + 1) (by simpa using hc)
        (fun j cj hj hcj => hok (j + 1) cj (by omega) (by simpa using hcj))
        hfail
      simp only [embedChunksGo, hv]
      refine ⟨hrec.1, ?_, ?_⟩
      · simp [mkDoc, hrec.2.1, List.range']
      · simp [mkDoc, hrec.2.2]

/-- Every branch of the per-file body leaves the previously accumulated
documents in place (it can only append): a per-file error never discards
other files' documents and never aborts the run. -/
theorem processFile_docs_extend (env : Env) (indexed : WMap) (f : RFile)
    (st : St) :
    ∃ ds, (processFile env indexed f st).1.docs = st.docs ++ ds := by
  have hadj : ∀ s : St, (adjustCounts indexed f s).docs = s.docs := by
    intro s
    unfold adjustCounts
    split
    · rfl
    · split
      · split <;> rfl
      · rfl
  simp only [processFile]
  repeat' split
  all_goals first
    | (refine ⟨[], ?_⟩; simp [hadj]; done)
    | exact ⟨_, rfl⟩

/-- Claim C5 (amended): when embedding fails on chunk `N` of a file, the
remaining chunks of that file are not embedded and the run continues
(the per-file body is total and only ever appends to the accumulated
documents) — but the documents of chunks `0 .. N-1`, already pushed
before the failure, stay in the accumulated list; per-file all-or-nothing
does not hold. -/
theorem embedding_failure_aborts_file_only (env : Env) (fid : List Char)
    (f : RFile) (chunks : List (List Char)) (N : Nat) (c e : List Char)
    (hc : chunks[N]? = some c)
    (hok : ∀ j cj, j < N → chunks[j]? = some cj → ∃ v, env.embed cj = .ok v)
    (hfail : env.embed c = .error e) :
    (embedChunksGo env fid f chunks 0).2 = true ∧
    (embedChunksGo env fid f chunks 0).1.map (fun d => d.chunk_offset) =
      List.range' 0 N ∧
    (embedChunksGo env fid f chunks 0).1.map (fun d => d.content) =
      chunks.take N ∧
    (∀ (indexed : WMap) (st : St), ∃ ds,
      (processFile env indexed f st).1.docs = st.docs ++ ds) := by
  have h := embedChunksGo_fail env fid f chunks N c e 0 hc hok hfail
  exact ⟨h.1, h.2.1, h.2.2, fun indexed st => processFile_docs_extend env indexed f st⟩

/-- Witness for C5 (amended): two chunks, the second fails to embed;
only the first chunk's document is produced. -/
theorem embedding_failure_aborts_file_only_witness :
    (embedChunksGo envW "w".toList fileW [['a'], []] 0).2 = true ∧
    (embedChunksGo envW "w".toList fileW [['a'], []] 0).1.map
      (fun d => d.chunk_offset) = List.range' 0 1 ∧
    (embedChunksGo envW "w".toList fileW [['a'], []] 0).1.map
      (fun d => d.content) = [['a'], []].take 1 ∧
    (∀ (indexed : WMap) (st : St), ∃ ds,
      (processFile envW indexed fileW st).1.docs = st.docs ++ ds) :=
  embedding_failure_aborts_file_only envW "w".toList fileW [['a'], []] 1 []
    "e".toList (by decide)
    (by
      intro j cj hj hcj
      have hj0 : j = 0 := by omega
      subst hj0
      have : cj = ['a'] := by simpa using hcj.symm
      subst this
      exact ⟨[2], rfl⟩)
    rfl

set_option maxRecDepth 100000 in
set_option maxHeartbeats 1000000 in
/-- Counterexample to claim C5 as stated: on `fileC5` (1000 extracted
characters, chunks of lengths 1000 and 200, embedding failing on the
second) the file's processing errors, yet the document of its first
chunk is upserted: the upserted set is exactly that one document and the
run exits successfully. -/
theorem partial_docs_upserted_counterexample :
    (runIngest envC5 [] [fileC5]).st.errors = 1 ∧
    (runIngest envC5 [] [fileC5]).sent.flatten.map
      (fun d => (d.file_id, d.chunk_offset)) = [("A".toList, 0)] ∧
    (runIngest envC5 [] [fileC5]).exit = 0 := by
  refine ⟨by decide, by decide, by decide⟩

/-- Counterexample to claim C6 as stated: `fileC6A` should have produced
documents but errored during extraction, while `fileC6B` was skipped as
unchanged.  Zero documents were produced, not every file was skipped for
a counted reason (one of the two errored), yet the run exits 0; and a
run over zero files also exits 0 although no file was seen. -/
theorem exit_success_despite_error_counterexample :
    (runIngest envC6 wmC6 [fileC6A, fileC6B]).exit = 0 ∧
    (runIngest envC6 wmC6 [fileC6A, fileC6B]).st.errors = 1 ∧
    (runIngest envC6 wmC6 [fileC6A, fileC6B]).st.newC = 1 ∧
    (runIngest envC6 wmC6 [fileC6A, fileC6B]).st.skipped = 1 ∧
    (runIngest envC6 wmC6 [fileC6A, fileC6B]).st.docs = [] ∧
    (runIngest envOk [] []).exit = 0 := by
  refine ⟨by decide, by decide, by decide, by decide, by decide, by decide⟩

/-- Claim C6 (amended): when zero documents were produced, the run exits
successfully iff the listing was empty or at least one file was counted
in `skippedCount` (unchanged / xlsx / oversize skips) — regardless of
whether other files errored; a chunk-count-guardrail skip increments no
counter and files that errored count for nothing. -/
theorem zero_docs_exit_iff_skipped (env : Env) (indexed : WMap)
    (files : List RFile)
    (hdocs : (runIngest env indexed files).st.docs = []) :
    ((runIngest env indexed files).exit = 0 ↔
      files = [] ∨ 0 < (runIngest env indexed files).st.skipped) := by
  by_cases hf : files.isEmpty = true
  · have hfe : files = [] := by
      cases files with
      | nil => rfl
      | cons a l => simp at hf
    subst hfe
    simp [runIngest]
  · have hfe : ¬ files = [] := by
      intro h
      subst h
      simp at hf
    simp only [runIngest] at hdocs ⊢
    rw [if_neg hf] at hdocs ⊢
    generalize hst : List.foldl (fun s f => (processFile env indexed f s).1) {} files = st
      at hdocs ⊢
    by_cases hd : st.docs.isEmpty = true
    · rw [if_pos hd] at hdocs ⊢
      by_cases hs : 0 < st.skipped
      · rw [if_pos hs]
        simp [hs]
      · rw [if_neg hs]
        simp [hfe, hs]
    · exfalso
      rw [if_neg hd] at hdocs
      split at hdocs <;> simp_all

/-- Witness for C6 (amended), at the empty listing. -/
theorem zero_docs_exit_iff_skipped_witness :
    ((runIngest envOk [] []).exit = 0 ↔
      ([] : List RFile) = [] ∨ 0 < (runIngest envOk [] []).st.skipped) :=
  zero_docs_exit_iff_skipped envOk [] [] (by decide)

/-- Concatenating the batches restores the document sequence from
position `i` on (given enough fuel). -/
theorem batchLoop_join (bs : Nat) (docs : List Doc) (hbs : 0 < bs) :
    ∀ (fuel i : Nat), docs.length ≤ i + fuel →
      (batchLoop bs docs fuel i).flatten = docs.drop i := by
  intro fuel
  induction fuel with
  | zero =>
    intro i h
    have hd : docs.drop i = [] := List.drop_eq_nil_of_le (by omega)
    simp [batchLoop, hd]
  | succ n ih =>
    intro i h
    by_cases hi : i < docs.length
    · simp only [batchLoop, if_pos hi, List.flatten_cons]
      rw [ih (i + bs) (by omega)]
      have h2 : docs.drop (i + bs) = (docs.drop i).drop bs := by
        rw [List.drop_drop, Nat.add_comm]
      rw [h2, List.take_append_drop]
    · have hd : docs.drop i = [] := List.drop_eq_nil_of_le (by omega)
      simp [batchLoop, hi, hd]

/-- Every batch holds at most `bs` documents. -/
theorem batchLoop_mem_length (bs : Nat) (docs : List Doc) :
    ∀ (fuel i : Nat) (b : List Doc), b ∈ batchLoop bs docs fuel i →
      b.length ≤ bs := by
  intro fuel
  induction fuel with
  | zero => intro i b hb; simp [batchLoop] at hb
  | succ n ih =>
    intro i b hb
    by_cases hi : i < docs.length
    · simp only [batchLoop, if_pos hi, List.mem_cons] at hb
      rcases hb with rfl | hb
      · exact List.length_take_le bs _
      · exact ih _ b hb
    · simp [batchLoop, hi] at hb

/-- When every batch is accepted, all batches are submitted in order and
no error is reported. -/
theorem sendTrace_all_ok (up : List Doc → Except (List Char) Unit) :
    ∀ bl, (∀ b ∈ bl, up b = .ok ()) → sendTrace up bl = (bl, none) := by
  intro bl
  induction bl with
  | nil => intro h; rfl
  | cons b rest ih =>
    intro h
    have hb := h b (List.mem_cons_self b rest)
    simp only [sendTrace, hb]
    rw [ih (fun x hx => h x (List.mem_cons_of_mem b hx))]

/-- When the first failing batch is batch `N`, exactly the batches
`0 .. N` are submitted (batch `N` last, failing) and the error is
reported; no later batch is submitted. -/
theorem sendTrace_fail (up : List Doc → Except (List Char) Unit) :
    ∀ bl (N : Nat) (bN : List Doc) (e : List Char),
      bl[N]? = some bN →
      (∀ j bj, j < N → bl[j]? = some bj → up bj = .ok ()) →
      up bN = .error e →
      sendTrace up bl = (bl.take (N + 1), some e) := by
  intro bl
  induction bl with
  | nil => intro N bN e h; simp at h
  | cons b rest ih =>
    intro N bN e hN hok hfail
    cases N with
    | zero =>
      have hb : b = bN := by simpa using hN
      subst hb
      simp [sendTrace, hfail]
    | succ k =>
      have hb : up b = .ok () := hok 0 b k.succ_pos (by simp)
      simp only [sendTrace, hb]
      rw [ih k bN e (by simpa using hN)
        (fun j bj hj hbj => hok (j + 1) bj (by omega) (by simpa using hbj))
        hfail]
      rfl

/-- An upsert error always produces a failing exit. -/
theorem runIngest_upsertErr_exit (env : Env) (indexed : WMap)
    (files : List RFile) (e : List Char)
    (h : (runIngest env indexed files).upsertErr = some e) :
    (runIngest env indexed files).exit = 1 := by
  simp only [runIngest] at h ⊢
  by_cases hf : files.isEmpty = true
  · rw [if_pos hf] at h
    simp at h
  · rw [if_neg hf] at h ⊢
    generalize List.foldl (fun s f => (processFile env indexed f s).1) {} files = st
      at h ⊢
    by_cases hd : st.docs.isEmpty = true
    · rw [if_pos hd] at h ⊢
      by_cases hs : 0 < st.skipped
      · rw [if_pos hs] at h
        simp at h
      · rw [if_neg hs]
    · rw [if_neg hd] at h ⊢
      rcases hsp : (sendTrace env.upsert (batchesOf 100 st.docs)).2 with _ | e2 <;>
        simp_all

/-- Claim C7 (confirmed): the index writer partitions the document
sequence into consecutive batches of at most 100 documents whose
concatenation restores the sequence (every document in exactly one batch,
order preserved); batches are submitted one call at a time in order; when
every batch is accepted all batches are submitted with no error, and when
the first failure is at batch `N` exactly batches `0 .. N` were submitted
(none after `N`) and the reported error makes the run exit 1. -/
theorem upsert_batching_semantics :
    (∀ docs : List Doc, (batchesOf 100 docs).flatten = docs) ∧
    (∀ (docs : List Doc) (b : List Doc), b ∈ batchesOf 100 docs →
      b.length ≤ 100) ∧
    (∀ (up : List Doc → Except (List Char) Unit) (docs : List Doc),
      (∀ b ∈ batchesOf 100 docs, up b = .ok ()) →
      sendTrace up (batchesOf 100 docs) = (batchesOf 100 docs, none)) ∧
    (∀ (up : List Doc → Except (List Char) Unit) (docs : List Doc) (N : Nat)
        (bN : List Doc) (e : List Char),
      (batchesOf 100 docs)[N]? = some bN →
      (∀ j bj, j < N → (batchesOf 100 docs)[j]? = some bj →
        up bj = .ok ()) →
      up bN = .error e →
      sendTrace up (batchesOf 100 docs) =
        ((batchesOf 100 docs).take (N + 1), some e)) ∧
    (∀ (env : Env) (indexed : WMap) (files : List RFile) (e : List Char),
      (runIngest env indexed files).upsertErr = some e →
      (runIngest env indexed files).exit = 1) := by
  refine ⟨?_, ?_, ?_, ?_, ?_⟩
  · intro docs
    simpa using batchLoop_join 100 docs (by omega) (docs.length + 1) 0 (by omega)
  · intro docs b hb
    exact batchLoop_mem_length 100 docs (docs.length + 1) 0 b hb
  · intro up docs h
    exact sendTrace_all_ok up (batchesOf 100 docs) h
  · intro up docs N bN e hN hok hfail
    exact sendTrace_fail up (batchesOf 100 docs) N bN e hN hok hfail
  · intro env indexed files e h
    exact runIngest_upsertErr_exit env indexed files e h

/-- Witness for C7: two documents form one batch; with an upsert oracle
rejecting every batch, the single batch is submitted and the error
reported. -/
theorem upsert_batching_semantics_witness :
    (batchesOf 100 [docW 0, docW 1]).flatten = [docW 0, docW 1] ∧
    sendTrace upFail (batchesOf 100 [docW 0, docW 1]) =
      ((batchesOf 100 [docW 0, docW 1]).take 1, some "503".toList) :=
  ⟨upsert_batching_semantics.1 [docW 0, docW 1],
   upsert_batching_semantics.2.2.2.1 upFail [docW 0, docW 1] 0 [docW 0, docW 1]
     "503".toList (by decide)
     (fun j bj hj _ => absurd hj (Nat.not_lt_zero j)) rfl⟩

/-- Claim C9 (confirmed): a new file whose reported byte size is exactly
`MAX_FILE_SIZE_BYTES` (25 MiB) passes both size checks (its outcome is
never an oversize skip, so it proceeds to download and extraction), while
a file one byte larger is skipped on the metadata size check: the general
skip counter is incremented, the error count and the accumulated
documents are untouched (not an error), and the new-file count is
adjusted back. -/
theorem size_guardrail_boundary :
    (∀ (env : Env) (indexed : WMap) (st : St) (f : RFile) (buf : List Nat),
      categorize indexed f = .isNew →
      f.size = some MAX_FILE_SIZE_BYTES →
      env.download (normalizeId f.id) = .ok buf →
      buf.length ≤ MAX_FILE_SIZE_BYTES →
      (processFile env indexed f st).2 ≠ .skipOversizeMeta ∧
      (processFile env indexed f st).2 ≠ .skipOversizeBuffer) ∧
    (∀ (env : Env) (indexed : WMap) (st : St) (f : RFile),
      extOf f.name ≠ "xlsx".toList →
      wmTruthy indexed (normalizeId f.id) = none →
      f.size = some (MAX_FILE_SIZE_BYTES + 1) →
      (processFile env indexed f st).2 = .skipOversizeMeta ∧
      (processFile env indexed f st).1.skipped = st.skipped + 1 ∧
      (processFile env indexed f st).1.errors = st.errors ∧
      (processFile env indexed f st).1.newC = st.newC ∧
      (processFile env indexed f st).1.docs = st.docs) := by
  constructor
  · intro env indexed st f buf hcat hsize hdl hlen
    have h1 : ¬ MAX_FILE_SIZE_BYTES < f.size.getD 0 := by
      rw [hsize]; simp
    have h2 : ¬ MAX_FILE_SIZE_BYTES < buf.length := by omega
    simp only [processFile, hcat, if_neg h1, hdl, if_neg h2]
    repeat' split
    all_goals simp
  · intro env indexed st f hx hwm hsize
    have hcat : categorize indexed f = .isNew := by
      simp only [categorize, if_neg hx, hwm]
    have h1 : MAX_FILE_SIZE_BYTES < f.size.getD 0 := by
      rw [hsize]; simp
    simp only [processFile, hcat, if_pos h1]
    simp [adjustCounts, hwm]

/-- Witness for C9: `fileAtMax` is not oversize-skipped; `fileOverMax`
is, with the skip counted and nothing recorded as an error. -/
theorem size_guardrail_boundary_witness :
    ((processFile envOk [] fileAtMax {}).2 ≠ .skipOversizeMeta ∧
     (processFile envOk [] fileAtMax {}).2 ≠ .skipOversizeBuffer) ∧
    ((processFile envOk [] fileOverMax {}).2 = .skipOversizeMeta ∧
     (processFile envOk [] fileOverMax {}).1.skipped = St.skipped {} + 1 ∧
     (processFile envOk [] fileOverMax {}).1.errors = St.errors {} ∧
     (processFile envOk [] fileOverMax {}).1.newC = St.newC {} ∧
     (processFile envOk [] fileOverMax {}).1.docs = St.docs {}) :=
  ⟨size_guardrail_boundary.1 envOk [] {} fileAtMax [] (by decide) (by decide)
     rfl (by decide),
   size_guardrail_boundary.2 envOk [] {} fileOverMax (by decide) (by decide)
     (by decide)⟩

/-! ## Lemmas about change detection -/

theorem lookupA_setA_self : ∀ (m : WMap) (k : List Char) (v : Option Nat),
    lookupA (setA m k v) k = some v := by
  intro m
  induction m with
  | nil => intro k v; simp [setA, lookupA]
  | cons p rest ih =>
    intro k v
    by_cases h : p.1 = k
    · simp [setA, lookupA, h]
    · simp only [setA]
      rw [if_neg h]
      simp only [lookupA]
      rw [if_neg h]
      exact ih k v

theorem lookupA_setA_ne : ∀ (m : WMap) (k : List Char) (v : Option Nat)
    (k2 : List Char), k2 ≠ k → lookupA (setA m k v) k2 = lookupA m k2 := by
  intro m
  induction m with
  | nil =>
    intro k v k2 h
    simp only [setA, lookupA]
    rw [if_neg (fun hc => h hc.symm)]
  | cons p rest ih =>
    intro k v k2 h
    by_cases hp : p.1 = k
    · simp only [setA]
      rw [if_pos hp]
      simp only [lookupA]
      rw [if_neg (by rw [hp]; exact fun hc => h hc.symm),
        if_neg (by rw [hp]; exact fun hc => h hc.symm)]
    · simp only [setA]
      rw [if_neg hp]
      simp only [lookupA]
      by_cases hp2 : p.1 = k2
      · rw [if_pos hp2, if_pos hp2]
      · rw [if_neg hp2, if_neg hp2]
        exact ih k v k2 h

/-- `wmUpdate` when the id is new to the map (or stored as empty). -/
theorem wmUpdate_absent (m : WMap) (d : QDoc) (h1 : ¬ d.file_id = [])
    (h2 : lookupA m d.file_id = none) :
    wmUpdate m d = setA m d.file_id d.updated_at := by
  rw [wmUpdate, if_neg h1, h2]

/-- `wmUpdate` when the id is stored with the empty watermark. -/
theorem wmUpdate_stored_empty (m : WMap) (d : QDoc) (h1 : ¬ d.file_id = [])
    (h2 : lookupA m d.file_id = some none) :
    wmUpdate m d = setA m d.file_id d.updated_at := by
  rw [wmUpdate, if_neg h1, h2]

/-- `wmUpdate` when the id is stored with a non-empty watermark and the
row has a timestamp: overwrite exactly on a strictly larger one. -/
theorem wmUpdate_compare (m : WMap) (d : QDoc) (w t : Nat)
    (h1 : ¬ d.file_id = []) (h2 : lookupA m d.file_id = some (some w))
    (h3 : d.updated_at = some t) :
    wmUpdate m d = if w < t then setA m d.file_id (some t) else m := by
  rw [wmUpdate, if_neg h1, h2, h3]

/-- Processing one clean query row updates the map so that it keeps
mapping every non-empty file id to the maximum watermark seen so far. -/
theorem wmUpdate_step (P : List QDoc) (m : WMap) (d : QDoc)
    (hd : d.updated_at.isSome = true)
    (hm : ∀ fid, fid ≠ [] → lookupA m fid =
      if valsOf P fid = [] then none else some (some (specWatermark P fid))) :
    ∀ fid, fid ≠ [] → lookupA (wmUpdate m d) fid =
      if valsOf (P ++ [d]) fid = [] then none
      else some (some (specWatermark (P ++ [d]) fid)) := by
  intro fid hfid
  obtain ⟨t, ht⟩ := Option.isSome_iff_exists.mp hd
  by_cases hdf : d.file_id = []
  · rw [wmUpdate, if_pos hdf]
    have hvf : valsOf (P ++ [d]) fid = valsOf P fid := by
      simp only [valsOf, List.filterMap_append, List.filterMap_cons,
        List.filterMap_nil]
      rw [if_neg (fun h => hfid (h.symm.trans hdf))]
      simp
    have hsw : specWatermark (P ++ [d]) fid = specWatermark P fid := by
      simp only [specWatermark, hvf]
    rw [hvf, hsw]
    exact hm fid hfid
  · by_cases heq : d.file_id = fid
    · have hvf : valsOf (P ++ [d]) fid = valsOf P fid ++ [t] := by
        simp [valsOf, List.filterMap_append, List.filterMap_cons, heq, ht]
      have hsw : specWatermark (P ++ [d]) fid =
          Nat.max (specWatermark P fid) t := by
        simp only [specWatermark, hvf, List.foldl_append]
        rfl
      have hne : ¬ valsOf (P ++ [d]) fid = [] := by
        rw [hvf]; simp
      rw [if_neg hne, hsw]
      by_cases hvp : valsOf P fid = []
      · have hlk : lookupA m d.file_id = none := by
          rw [heq, hm fid hfid, if_pos hvp]
        have hz : specWatermark P fid = 0 := by
          rw [specWatermark, hvp]; rfl
        rw [wmUpdate_absent m d hdf hlk, ht, heq, lookupA_setA_self, hz]
        simp
      · have hlk : lookupA m d.file_id = some (some (specWatermark P fid)) := by
          rw [heq, hm fid hfid, if_neg hvp]
        rw [wmUpdate_compare m d (specWatermark P fid) t hdf hlk ht]
        by_cases hlt : specWatermark P fid < t
        · rw [if_pos hlt, heq, lookupA_setA_self]
          congr 2
          exact (Nat.max_eq_right (le_of_lt hlt)).symm
        · rw [if_neg hlt, hm fid hfid, if_neg hvp]
          congr 2
          exact (Nat.max_eq_left (le_of_not_lt hlt)).symm
    · have hvf : valsOf (P ++ [d]) fid = valsOf P fid := by
        simp only [valsOf, List.filterMap_append, List.filterMap_cons,
          List.filterMap_nil]
        rw [if_neg heq]
        simp
      have hne2 : fid ≠ d.file_id := fun h => heq h.symm
      have hpres : lookupA (wmUpdate m d) fid = lookupA m fid := by
        rw [wmUpdate, if_neg hdf]
        cases hlk : lookupA m d.file_id with
        | none => exact lookupA_setA_ne m _ _ _ hne2
        | some ov =>
          cases ov with
          | none => exact lookupA_setA_ne m _ _ _ hne2
          | some w =>
            rw [ht]
            show lookupA (if w < t then setA m d.file_id (some t) else m) fid =
              lookupA m fid
            by_cases hlt : w < t
            · rw [if_pos hlt]
              exact lookupA_setA_ne m _ _ _ hne2
            · rw [if_neg hlt]
      have hsw : specWatermark (P ++ [d]) fid = specWatermark P fid := by
        simp only [specWatermark, hvf]
      rw [hpres, hm fid hfid, hvf, hsw]

/-- Folding clean query rows preserves the max-watermark characterisation
of the map. -/
theorem wmFold_good (L : List QDoc) :
    ∀ (P : List QDoc) (m : WMap),
      (∀ d ∈ L, d.updated_at.isSome = true) →
      (∀ fid, fid ≠ [] → lookupA m fid =
        if valsOf P fid = [] then none
        else some (some (specWatermark P fid))) →
      ∀ fid, fid ≠ [] → lookupA (L.foldl wmUpdate m) fid =
        if valsOf (P ++ L) fid = [] then none
        else some (some (specWatermark (P ++ L) fid)) := by
  induction L with
  | nil =>
    intro P m hcl hm fid hfid
    simpa using hm fid hfid
  | cons d L ih =>
    intro P m hcl hm fid hfid
    have hstep := wmUpdate_step P m d (hcl d (List.mem_cons_self d L)) hm
    have := ih (P ++ [d]) (wmUpdate m d)
      (fun x hx => hcl x (List.mem_cons_of_mem d hx)) hstep fid hfid
    simpa [List.append_assoc] using this

/-- The map built by the whole fold maps every non-empty id to the
maximum watermark over its rows. -/
theorem wmFold_char (all : List QDoc)
    (hcl : ∀ d ∈ all, d.updated_at.isSome = true) :
    ∀ fid, fid ≠ [] →
      lookupA (all.foldl wmUpdate []) fid =
        if valsOf all fid = [] then none
        else some (some (specWatermark all fid)) := by
  have h := wmFold_good all [] []
    hcl
    (by
      intro fid hfid
      simp [lookupA, valsOf])
  intro fid hfid
  simpa using h fid hfid

/-- The offset-pagination loop visits every row exactly once: with enough
fuel it folds the whole remaining suffix, stopping at the first empty or
undersized page. -/
theorem gifLoop_drains (all : List QDoc) (top : Nat) (htop : 0 < top) :
    ∀ (fuel skip : Nat) (m : WMap), all.length < skip + fuel →
      gifLoop all top fuel skip m =
        some ((all.drop skip).foldl wmUpdate m) := by
  intro fuel
  induction fuel with
  | zero =>
    intro skip m h
    have hd : all.drop skip = [] := List.drop_eq_nil_of_le (by omega)
    simp [gifLoop, hd]
  | succ n ih =>
    intro skip m h
    by_cases hp : ((all.drop skip).take top).isEmpty = true
    · have hd : all.drop skip = [] := by
        rcases List.take_eq_nil_iff.mp (List.isEmpty_iff.mp hp) with h1 | h1
        · omega
        · exact h1
      simp only [gifLoop]
      rw [if_pos hp, hd]
      rfl
    · simp only [gifLoop]
      rw [if_neg hp]
      by_cases hlen : ((all.drop skip).take top).length < top
      · rw [if_pos hlen]
        have hdp : (all.drop skip).take top = all.drop skip := by
          apply List.take_of_length_le
          rw [List.length_take] at hlen
          omega
        rw [hdp]
      · rw [if_neg hlen]
        rw [ih (skip + top) (((all.drop skip).take top).foldl wmUpdate m)
          (by omega)]
        congr 1
        rw [← List.foldl_append]
        congr 1
        have hdd : all.drop (skip + top) = (all.drop skip).drop top := by
          rw [List.drop_drop, Nat.add_comm]
        rw [hdd, List.take_append_drop]

/-- Claim C8 (confirmed): `getIndexedFiles` paginates with offset pages of
1000 until an empty or undersized page, reading every row exactly once
(its result is the fold over all rows), and for well-formed rows (every
row carries a timestamp) it maps every non-empty `file_id` appearing in
the rows to the maximum `updated_at` over that file's rows. -/
theorem getIndexedFiles_max_watermark (all : List QDoc) :
    getIndexedFiles all = some (all.foldl wmUpdate []) ∧
    (∀ fid, fid ≠ [] →
      (∀ d ∈ all, d.updated_at.isSome = true) →
      (∃ d, d ∈ all ∧ d.file_id = fid) →
      lookupA (all.foldl wmUpdate []) fid =
        some (some (specWatermark all fid))) := by
  constructor
  · rw [getIndexedFiles]
    have h := gifLoop_drains all 1000 (by omega) (all.length + 1) 0 [] (by omega)
    simpa using h
  · intro fid hfid hcl hex
    rw [wmFold_char all hcl fid hfid]
    rw [if_neg ?hv]
    case hv =>
      intro hv
      obtain ⟨d, hdm, hdf⟩ := hex
      have hnone := (List.filterMap_eq_nil_iff.mp hv) d hdm
      rw [if_pos hdf] at hnone
      have := hcl d hdm
      rw [hnone] at this
      simp at this

/-- Witness for C8: of the two rows for file `f` (timestamps 3 and 7) the
map keeps 7, the maximum. -/
theorem getIndexedFiles_max_watermark_witness :
    lookupA (qdocsW.foldl wmUpdate []) "f".toList =
      some (some (specWatermark qdocsW "f".toList)) :=
  (getIndexedFiles_max_watermark qdocsW).2 "f".toList (by decide) (by decide)
    (by decide)

/-! ## Lemmas about the content hash -/

theorem toInt32_range (n : Int) :
    -(2 ^ 31) ≤ toInt32 n ∧ toInt32 n < 2 ^ 31 := by
  unfold toInt32
  omega

theorem hashAcc_foldl_range : ∀ (s : List Char) (h : Int),
    -(2 ^ 31) ≤ h → h < 2 ^ 31 →
    -(2 ^ 31) ≤ List.foldl hashStep h s ∧ List.foldl hashStep h s < 2 ^ 31 := by
  intro s
  induction s with
  | nil => intro h h1 h2; exact ⟨h1, h2⟩
  | cons c s ih =>
    intro h h1 h2
    have hr := toInt32_range (toInt32 (h * 32) - h + c.toNat)
    exact ih (hashStep h c) hr.1 hr.2

theorem hexToNat_hexDigitChar (n : Nat) (h : n < 16) :
    hexToNat (hexDigitChar n) = n := by
  interval_cases n <;> decide

theorem natToHexAux_val : ∀ (fuel n : Nat) (acc : List Char) (a : Nat),
    n < 16 ^ (fuel + 1) →
    ∃ k, List.foldl (fun a c => a * 16 + hexToNat c) a (natToHexAux fuel n acc) =
        List.foldl (fun a c => a * 16 + hexToNat c) (a * 16 ^ k + n) acc ∧
      n < 16 ^ k := by
  intro fuel
  induction fuel with
  | zero =>
    intro n acc a h
    refine ⟨1, ?_, by simpa using h⟩
    have hm : n % 16 = n := Nat.mod_eq_of_lt (by simpa using h)
    simp only [natToHexAux, hm, List.foldl_cons,
      hexToNat_hexDigitChar n (by simpa using h)]
    norm_num
  | succ f ih =>
    intro n acc a h
    by_cases hn : n < 16
    · refine ⟨1, ?_, by simpa using hn⟩
      simp only [natToHexAux, if_pos hn, List.foldl_cons,
        hexToNat_hexDigitChar n hn]
      norm_num
    · have hdiv : n / 16 < 16 ^ (f + 1) := by
        rw [Nat.div_lt_iff_lt_mul (by omega)]
        calc n < 16 ^ (f + 1 + 1) := h
        _ = 16 ^ (f + 1) * 16 := by ring
      obtain ⟨k, hk, hbound⟩ :=
        ih (n / 16) (hexDigitChar (n % 16) :: acc) a hdiv
      refine ⟨k + 1, ?_, ?_⟩
      · simp only [natToHexAux, if_neg hn]
        rw [hk]
        simp only [List.foldl_cons,
          hexToNat_hexDigitChar (n % 16) (Nat.mod_lt n (by omega))]
        congr 1
        have hdm : n / 16 * 16 + n % 16 = n := by omega
        have : (a * 16 ^ k + n / 16) * 16 + n % 16 =
            a * (16 ^ k * 16) + (n / 16 * 16 + n % 16) := by ring
        rw [this, hdm, pow_succ]
      · rw [pow_succ]
        exact (Nat.div_lt_iff_lt_mul (by omega)).mp hbound

theorem hexValue_natToHex (n : Nat) (h : n < 16 ^ 12) :
    hexValue (natToHex n) = n := by
  obtain ⟨k, hk, _⟩ := natToHexAux_val 11 n [] 0 h
  simpa [hexValue, natToHex] using hk

theorem hexDigitChar_lower (m : Nat) :
    isLowerHexDigit (hexDigitChar m) = true := by
  unfold hexDigitChar
  split <;> decide

theorem natToHexAux_lower : ∀ (fuel n : Nat) (acc : List Char),
    (∀ c ∈ acc, isLowerHexDigit c = true) →
    ∀ c ∈ natToHexAux fuel n acc, isLowerHexDigit c = true := by
  intro fuel
  induction fuel with
  | zero =>
    intro n acc hacc c hc
    rcases List.mem_cons.mp hc with rfl | hmem
    · exact hexDigitChar_lower _
    · exact hacc c hmem
  | succ f ih =>
    intro n acc hacc c hc
    by_cases hn : n < 16
    · rw [natToHexAux, if_pos hn] at hc
      rcases List.mem_cons.mp hc with rfl | hmem
      · exact hexDigitChar_lower _
      · exact hacc c hmem
    · rw [natToHexAux, if_neg hn] at hc
      refine ih (n / 16) (hexDigitChar (n % 16) :: acc) ?_ c hc
      intro c2 hc2
      rcases List.mem_cons.mp hc2 with rfl | hmem
      · exact hexDigitChar_lower _
      · exact hacc c2 hmem

/-- Claim C10 (confirmed): `hashContent` is a total function of the
content alone; its accumulator always lies in the signed 32-bit range
(the `<<`/`&` coercions wrap modulo `2^32`); the output is exactly the
base-16 rendering of the accumulator's absolute value (it denotes that
number and consists solely of lowercase hex digits — in particular it
never carries a sign); and equal contents always hash equal. -/
theorem hashContent_hex_abs_int32 :
    (∀ s : List Char, -(2 ^ 31) ≤ hashAcc s ∧ hashAcc s < 2 ^ 31) ∧
    (∀ s : List Char, hashContent s = natToHex (hashAcc s).natAbs) ∧
    (∀ s : List Char, hexValue (hashContent s) = (hashAcc s).natAbs) ∧
    (∀ s : List Char, (hashContent s).all isLowerHexDigit = true) ∧
    (∀ s t : List Char, s = t → hashContent s = hashContent t) := by
  have hrange : ∀ s : List Char,
      -(2 ^ 31) ≤ hashAcc s ∧ hashAcc s < 2 ^ 31 :=
    fun s => hashAcc_foldl_range s 0 (by omega) (by omega)
  refine ⟨hrange, fun s => rfl, ?_, ?_, fun s t h => h ▸ rfl⟩
  · intro s
    apply hexValue_natToHex
    have h := hrange s
    have : (hashAcc s).natAbs ≤ 2 ^ 31 := by omega
    calc (hashAcc s).natAbs ≤ 2 ^ 31 := this
    _ < 16 ^ 12 := by norm_num
  · intro s
    rw [List.all_eq_true]
    intro c hc
    exact natToHexAux_lower 11 (hashAcc s).natAbs [] (by simp) c hc

/-- Witness for C10 at a concrete content. -/
theorem hashContent_hex_abs_int32_witness :
    hexValue (hashContent "abc".toList) = (hashAcc "abc".toList).natAbs ∧
    (hashContent "abc".toList).all isLowerHexDigit = true ∧
    hashContent "abc".toList = hashContent "abc".toList :=
  ⟨hashContent_hex_abs_int32.2.2.1 "abc".toList,
   hashContent_hex_abs_int32.2.2.2.1 "abc".toList,
   hashContent_hex_abs_int32.2.2.2.2 "abc".toList "abc".toList rfl⟩
